import Mathlib

/-! Verification of mesh2vol: normalization, domain allocation, stamping and command-line
validation.

A shallow embedding of `converters/mesh2vol.cpp` (DGtalTools).  Real coordinates are
taken over exact rational arithmetic; lattice coordinates are integers.
-/

namespace Mesh2Vol

/-! ## Real points (`Z3i::RealPoint`) -/

/-- Real point of dimension three (`Z3i::RealPoint`), over exact rationals. -/
structure PointR3 where
  x : ℚ
  y : ℚ
  z : ℚ
deriving DecidableEq

namespace PointR3

/-- Component-wise sum, the effect of `operator+=`. -/
def add (a b : PointR3) : PointR3 := ⟨a.x + b.x, a.y + b.y, a.z + b.z⟩

/-- Component-wise difference, `operator-` on two points. -/
def sub (a b : PointR3) : PointR3 := ⟨a.x - b.x, a.y - b.y, a.z - b.z⟩

/-- Unary minus, as in `-bbox.first`. -/
def neg (a : PointR3) : PointR3 := ⟨-a.x, -a.y, -a.z⟩

/-- Multiplication of every component by a scalar, the effect of `operator*=`. -/
def scale (a : PointR3) (f : ℚ) : PointR3 := ⟨a.x * f, a.y * f, a.z * f⟩

/-- Largest component of a point, `PointVector::max()`: a left-to-right scan that
keeps the first largest element. -/
def max (a : PointR3) : ℚ :=
  let m := if a.x < a.y then a.y else a.x
  if m < a.z then a.z else m

end PointR3

/-! ## Mesh and bounding box -/

/-- Mesh: the ordered vertex sequence and the faces (index tuples). -/
structure Mesh where
  vertices : List PointR3
  faces : List (List Nat)
deriving DecidableEq

/-- One step of the bounding-box reduction: every component of the lower corner is
replaced when the vertex is strictly smaller, every component of the upper corner when
the vertex is strictly larger. -/
def bboxStep (acc : PointR3 × PointR3) (pt : PointR3) : PointR3 × PointR3 :=
  (⟨if pt.x < acc.1.x then pt.x else acc.1.x,
    if pt.y < acc.1.y then pt.y else acc.1.y,
    if pt.z < acc.1.z then pt.z else acc.1.z⟩,
   ⟨if pt.x > acc.2.x then pt.x else acc.2.x,
    if pt.y > acc.2.y then pt.y else acc.2.y,
    if pt.z > acc.2.z then pt.z else acc.2.z⟩)

/-- Modelled from the spec: `Mesh::getBoundingBox` belongs to the external geometry
library; the spec gives its contract as "given a mesh with at least one vertex, compute
`min`, `max` corners by component-wise reduction over all vertices".  The reduction
starts from the first vertex; a mesh without vertices has no bounding box. -/
def getBoundingBox (m : Mesh) : Option (PointR3 × PointR3) :=
  match m.vertices with
  | [] => none
  | v0 :: vs => some (vs.foldl bboxStep (v0, v0))

/-- Faults of the normalization over exact arithmetic. -/
inductive Fault where
  | emptyMesh
  | divisionByZero
deriving DecidableEq

/-- Division with the zero divisor made explicit: `resolution / smax`. -/
def guardedDiv (a b : ℚ) : Except Fault ℚ :=
  if b = 0 then .error .divisionByZero else .ok (a / b)

/-- The divisor `smax = (bbox.second - bbox.first).max()`. -/
def smaxOf (bbox : PointR3 × PointR3) : ℚ := (bbox.2.sub bbox.1).max

/-- The vector `translate = -bbox.first`. -/
def translateOf (bbox : PointR3 × PointR3) : PointR3 := bbox.1.neg

/-- Body of the vertex loop: `*it += translate; *it *= factor;`. -/
def normalizeVertex (translate : PointR3) (factor : ℚ) (v : PointR3) : PointR3 :=
  (v.add translate).scale factor

/-- The scale factor `factor = resolution / smax` of a mesh, when it is defined. -/
def factorOf (resolution : Nat) (m : Mesh) : Except Fault ℚ :=
  match getBoundingBox m with
  | none => .error .emptyMesh
  | some bbox => guardedDiv (resolution : ℚ) (smaxOf bbox)

/-- The block "Preparing the mesh" of `voxelizeAndExport` after the file is read:
bounding box, `smax`, `factor`, `translate`, then the loop over all vertices. -/
def normalize (resolution : Nat) (m : Mesh) : Except Fault Mesh :=
  match getBoundingBox m with
  | none => .error .emptyMesh
  | some bbox =>
    match guardedDiv (resolution : ℚ) (smaxOf bbox) with
    | .error e => .error e
    | .ok factor =>
      .ok { m with vertices := m.vertices.map (normalizeVertex (translateOf bbox) factor) }

/-! ## Lattice points, domain and dense image -/

/-- Lattice point of dimension three (`Z3i::Point`). -/
structure PointZ3 where
  x : Int
  y : Int
  z : Int
deriving DecidableEq

/-- The point whose three components all equal `v`, `PointZ3().diagonal(v)`. -/
def PointZ3.diagonal (v : Int) : PointZ3 := ⟨v, v, v⟩

/-- Conversion of an `unsigned int` argument to the signed 32-bit component type of a
lattice point, as happens when `resolution` is passed to `diagonal`. -/
def toComponent (n : Nat) : Int :=
  if n % 2 ^ 32 < 2 ^ 31 then ((n % 2 ^ 32 : Nat) : Int) else ((n % 2 ^ 32 : Nat) : Int) - 2 ^ 32

/-- Library type `HyperRectDomain` (the geometry library is not part of the sources of
this repository; the definitions below follow its documented behaviour): the box of
lattice points spanned by the two corner points given to the constructor. -/
structure Domain where
  lowerBound : PointZ3
  upperBound : PointZ3
deriving DecidableEq

namespace Domain

/-- Membership test `isInside` of the library domain: a point is inside when it lies
between the two corners on every axis, both corners included. -/
def isInside (d : Domain) (p : PointZ3) : Bool :=
  decide (d.lowerBound.x ≤ p.x) && decide (p.x ≤ d.upperBound.x) &&
  decide (d.lowerBound.y ≤ p.y) && decide (p.y ≤ d.upperBound.y) &&
  decide (d.lowerBound.z ≤ p.z) && decide (p.z ≤ d.upperBound.z)

/-- Extent of the library domain: `upperBound - lowerBound + diagonal(1)`. -/
def extent (d : Domain) : PointZ3 :=
  ⟨d.upperBound.x - d.lowerBound.x + 1,
   d.upperBound.y - d.lowerBound.y + 1,
   d.upperBound.z - d.lowerBound.z + 1⟩

/-- Number of points of the library domain: the product of the extents. -/
def size (d : Domain) : Nat := (d.extent.x * d.extent.y * d.extent.z).toNat

end Domain

/-- The domain built by `voxelizeAndExport`:
`Domain aDomain(PointZ3().diagonal(0), PointZ3().diagonal(resolution))`. -/
def aDomain (resolution : Nat) : Domain :=
  ⟨PointZ3.diagonal 0, PointZ3.diagonal (toComponent resolution)⟩

/-- Dense image `ImageContainerBySTLVector<Domain, unsigned char>` of the geometry
library: a vector of values, one per domain point, addressed by linearized position. -/
structure Image where
  domain : Domain
  extent : PointZ3
  data : List Nat
deriving DecidableEq

namespace Image

/-- Construction of an image over a domain: the vector gets `size` value-initialized
(zero) entries. -/
def create (d : Domain) : Image := ⟨d, d.extent, List.replicate d.size 0⟩

/-- Position of a point in the vector: the offsets from the lower corner, weighted by the
running product of the extents (first axis fastest). -/
def linearized (img : Image) (p : PointZ3) : Nat :=
  ((p.x - img.domain.lowerBound.x)
    + img.extent.x * (p.y - img.domain.lowerBound.y)
    + img.extent.x * img.extent.y * (p.z - img.domain.lowerBound.z)).toNat

/-- Assignment `image.setValue(p, v)`. -/
def setValue (img : Image) (p : PointZ3) (v : Nat) : Image :=
  { img with data := img.data.set (img.linearized p) v }

/-- Value stored for a point, `image(p)`; nothing when the position is outside the vector. -/
def getValue (img : Image) (p : PointZ3) : Option Nat :=
  img.data[img.linearized p]?

end Image

/-- The stamping loop `for(auto p: mySet) image.setValue(p, 128);`, the digital set being
given by its iteration sequence. -/
def stamp (image : Image) (mySet : List PointZ3) : Image :=
  mySet.foldl (fun img p => img.setValue p 128) image

/-- The block "Exporting" of `voxelizeAndExport` up to the file writer: the image is
created over `aDomain` and stamped with the digital set. -/
def exportImage (resolution : Nat) (mySet : List PointZ3) : Image :=
  stamp (Image.create (aDomain resolution)) mySet

/-! ## Command line -/

/-- Content of the `variables_map` after parsing: which options were stored and their
values.  `separation` is the value given with `-s`, when one was given. -/
structure VariablesMap where
  help : Bool
  input : Option String
  output : Option String
  separation : Option Nat
  resolution : Option Nat
deriving DecidableEq

/-- What `main` works from: `argc`, whether `parse_command_line`/`store` completed
without an exception, and the resulting map. -/
structure CommandLine where
  argc : Int
  parseOK : Bool
  vm : VariablesMap
deriving DecidableEq

/-- One invocation `voxelizeAndExport<SEP>(inputFilename, outputFilename, resolution)`. -/
structure Conversion where
  sep : Nat
  inputFilename : String
  outputFilename : String
  resolution : Nat
deriving DecidableEq

/-- The value `vm["separation"].as<unsigned int>()`; the option is declared with
`default_value(6)`. -/
def separationOf (vm : VariablesMap) : Nat := vm.separation.getD 6

/-- The function `main`: the returned status together with the sequence of conversions
it invoked. -/
def main (cl : CommandLine) : Int × List Conversion :=
  if !cl.parseOK || cl.vm.help || decide (cl.argc < 1) then (-1, [])
  else
    match cl.vm.input with
    | none => (-1, [])
    | some inputFilename =>
      if separationOf cl.vm ≠ 6 ∧ separationOf cl.vm ≠ 26 then (-1, [])
      else
        let separation := separationOf cl.vm
        match cl.vm.resolution with
        | none => (-1, [])
        | some resolution =>
          match cl.vm.output with
          | none => (-1, [])
          | some outputFilename =>
            if separation = 6 then
              (0, [⟨6, inputFilename, outputFilename, resolution⟩])
            else if separation = 26 then
              (0, [⟨26, inputFilename, outputFilename, resolution⟩])
            else (0, [])

/-! ## Specification predicates -/

/-- The set of values a coordinate function takes on the vertices of a list. -/
def coords (f : PointR3 → ℚ) (l : List PointR3) : Set ℚ := {q | ∃ v ∈ l, f v = q}

/-- A pair of corners is the bounding box of a vertex list when, on every axis, the lower
corner holds the least and the upper corner the greatest coordinate found in the list. -/
def IsBoundingBox (l : List PointR3) (b : PointR3 × PointR3) : Prop :=
  IsLeast (coords PointR3.x l) b.1.x ∧ IsLeast (coords PointR3.y l) b.1.y ∧
  IsLeast (coords PointR3.z l) b.1.z ∧ IsGreatest (coords PointR3.x l) b.2.x ∧
  IsGreatest (coords PointR3.y l) b.2.y ∧ IsGreatest (coords PointR3.z l) b.2.z

/-- Every coordinate of the point lies in the closed interval from `lo` to `hi`. -/
def PointR3.within (lo hi : ℚ) (v : PointR3) : Prop :=
  (lo ≤ v.x ∧ v.x ≤ hi) ∧ (lo ≤ v.y ∧ v.y ≤ hi) ∧ (lo ≤ v.z ∧ v.z ≤ hi)

/-- Every coordinate of the point lies in the half-open interval from `lo` up to, but not
including, `hi`. -/
def PointR3.withinHalfOpen (lo hi : ℚ) (v : PointR3) : Prop :=
  (lo ≤ v.x ∧ v.x < hi) ∧ (lo ≤ v.y ∧ v.y < hi) ∧ (lo ≤ v.z ∧ v.z < hi)

/-- The origin `(0,0,0)`. -/
def PointR3.origin : PointR3 := ⟨0, 0, 0⟩

/-- The image `c*v + t` of a vertex under a uniform scaling followed by a translation. -/
def PointR3.affine (c : ℚ) (t : PointR3) (v : PointR3) : PointR3 :=
  ⟨c * v.x + t.x, c * v.y + t.y, c * v.z + t.z⟩

/-- The conditions under which the command line is accepted: parsing succeeded, `--help`
absent, `--input` present, separation `6` or `26`, `--resolution` and `--output` present. -/
def Accepted (cl : CommandLine) : Prop :=
  cl.parseOK = true ∧ cl.vm.help = false ∧ cl.vm.input.isSome = true ∧
  (separationOf cl.vm = 6 ∨ separationOf cl.vm = 26) ∧
  cl.vm.resolution.isSome = true ∧ cl.vm.output.isSome = true

/-- The single conversion the command line asks for: the given input, output and
resolution with the voxelizer of the given separation. -/
def RunsOnce (cl : CommandLine) (calls : List Conversion) : Prop :=
  ∃ i o res, cl.vm.input = some i ∧ cl.vm.output = some o ∧ cl.vm.resolution = some res ∧
    calls = [⟨separationOf cl.vm, i, o, res⟩]

/-! ## Sample inputs -/

/-- A mesh of two vertices spanning a box of extents `1`, `2` and `0`. -/
def segmentMesh : Mesh := ⟨[⟨0, 0, 0⟩, ⟨1, 2, 0⟩], []⟩

/-- The bounding box of `segmentMesh`. -/
def segmentBox : PointR3 × PointR3 := (⟨0, 0, 0⟩, ⟨1, 2, 0⟩)

/-- The command line of the usage example:
`mesh2vol -i tref.off --separation 26 --resolution 256 -o output.vol`. -/
def usageExample : CommandLine :=
  ⟨9, true, ⟨false, some "tref.off", some "output.vol", some 26, some 256⟩⟩

/-! ## Bounding box: basic facts -/

theorem bboxStep_eq (acc : PointR3 × PointR3) (pt : PointR3) :
    bboxStep acc pt =
      (⟨min acc.1.x pt.x, min acc.1.y pt.y, min acc.1.z pt.z⟩,
       ⟨max acc.2.x pt.x, max acc.2.y pt.y, max acc.2.z pt.z⟩) := by
  unfold bboxStep
  refine Prod.ext (PointR3.mk.injEq _ _ _ _ _ _ ▸ ⟨?_, ?_, ?_⟩)
    (PointR3.mk.injEq _ _ _ _ _ _ ▸ ⟨?_, ?_, ?_⟩) <;>
  · dsimp only
    split_ifs with h
    · first
        | exact (min_eq_right (le_of_lt h)).symm
        | exact (max_eq_right (le_of_lt h)).symm
    · first
        | exact (min_eq_left (not_lt.mp h)).symm
        | exact (max_eq_left (not_lt.mp h)).symm

theorem foldl_bboxStep (vs : List PointR3) (acc : PointR3 × PointR3) :
    vs.foldl bboxStep acc =
      (⟨vs.foldl (fun a v => min a v.x) acc.1.x,
        vs.foldl (fun a v => min a v.y) acc.1.y,
        vs.foldl (fun a v => min a v.z) acc.1.z⟩,
       ⟨vs.foldl (fun a v => max a v.x) acc.2.x,
        vs.foldl (fun a v => max a v.y) acc.2.y,
        vs.foldl (fun a v => max a v.z) acc.2.z⟩) := by
  induction vs generalizing acc with
  | nil => rfl
  | cons v vs ih => rw [List.foldl_cons, ih, bboxStep_eq]; rfl

/-- The running minimum of a coordinate is a lower bound of the start value and of every
scanned vertex, and it is the start value or the coordinate of a scanned vertex. -/
theorem foldl_min_spec (f : PointR3 → ℚ) (vs : List PointR3) (a : ℚ) :
    vs.foldl (fun a v => min a (f v)) a ≤ a ∧
    (∀ v ∈ vs, vs.foldl (fun a v => min a (f v)) a ≤ f v) ∧
    (vs.foldl (fun a v => min a (f v)) a = a ∨
      ∃ v ∈ vs, f v = vs.foldl (fun a v => min a (f v)) a) := by
  induction vs generalizing a with
  | nil => simp
  | cons w vs ih =>
    obtain ⟨h1, h2, h3⟩ := ih (min a (f w))
    simp only [List.foldl_cons, List.mem_cons, forall_eq_or_imp, exists_eq_or_imp]
    refine ⟨le_trans h1 (min_le_left _ _), ⟨le_trans h1 (min_le_right _ _), h2⟩, ?_⟩
    rcases h3 with h3 | h3
    · rcases min_choice a (f w) with hm | hm
      · left; rw [h3, hm]
      · right; left; rw [h3, hm]
    · right; right; exact h3

/-- The running maximum of a coordinate is an upper bound of the start value and of every
scanned vertex, and it is the start value or the coordinate of a scanned vertex. -/
theorem foldl_max_spec (f : PointR3 → ℚ) (vs : List PointR3) (a : ℚ) :
    a ≤ vs.foldl (fun a v => max a (f v)) a ∧
    (∀ v ∈ vs, f v ≤ vs.foldl (fun a v => max a (f v)) a) ∧
    (vs.foldl (fun a v => max a (f v)) a = a ∨
      ∃ v ∈ vs, f v = vs.foldl (fun a v => max a (f v)) a) := by
  induction vs generalizing a with
  | nil => simp
  | cons w vs ih =>
    obtain ⟨h1, h2, h3⟩ := ih (max a (f w))
    simp only [List.foldl_cons, List.mem_cons, forall_eq_or_imp, exists_eq_or_imp]
    refine ⟨le_trans (le_max_left _ _) h1, ⟨le_trans (le_max_right _ _) h1, h2⟩, ?_⟩
    rcases h3 with h3 | h3
    · rcases max_choice a (f w) with hm | hm
      · left; rw [h3, hm]
      · right; left; rw [h3, hm]
    · right; right; exact h3

theorem foldl_min_isLeast (f : PointR3 → ℚ) (v0 : PointR3) (vs : List PointR3) :
    IsLeast (coords f (v0 :: vs)) (vs.foldl (fun a v => min a (f v)) (f v0)) := by
  obtain ⟨h1, h2, h3⟩ := foldl_min_spec f vs (f v0)
  constructor
  · rcases h3 with h3 | ⟨v, hv, h3⟩
    · exact ⟨v0, List.mem_cons_self _ _, h3.symm⟩
    · exact ⟨v, List.mem_cons_of_mem _ hv, h3⟩
  · rintro q ⟨v, hv, rfl⟩
    rcases List.mem_cons.mp hv with rfl | hv
    · exact h1
    · exact h2 v hv

theorem foldl_max_isGreatest (f : PointR3 → ℚ) (v0 : PointR3) (vs : List PointR3) :
    IsGreatest (coords f (v0 :: vs)) (vs.foldl (fun a v => max a (f v)) (f v0)) := by
  obtain ⟨h1, h2, h3⟩ := foldl_max_spec f vs (f v0)
  constructor
  · rcases h3 with h3 | ⟨v, hv, h3⟩
    · exact ⟨v0, List.mem_cons_self _ _, h3.symm⟩
    · exact ⟨v, List.mem_cons_of_mem _ hv, h3⟩
  · rintro q ⟨v, hv, rfl⟩
    rcases List.mem_cons.mp hv with rfl | hv
    · exact h1
    · exact h2 v hv

/-- The reduction started at the first vertex yields the bounding box of the list. -/
theorem foldl_bboxStep_isBoundingBox (v0 : PointR3) (vs : List PointR3) :
    IsBoundingBox (v0 :: vs) (vs.foldl bboxStep (v0, v0)) := by
  rw [foldl_bboxStep]
  exact ⟨foldl_min_isLeast _ v0 vs, foldl_min_isLeast _ v0 vs, foldl_min_isLeast _ v0 vs,
    foldl_max_isGreatest _ v0 vs, foldl_max_isGreatest _ v0 vs, foldl_max_isGreatest _ v0 vs⟩

theorem PointR3.ext_iff3 (a b : PointR3) : a = b ↔ a.x = b.x ∧ a.y = b.y ∧ a.z = b.z := by
  cases a; cases b; simp

/-- A vertex list has at most one bounding box. -/
theorem IsBoundingBox.unique {l : List PointR3} {b c : PointR3 × PointR3}
    (hb : IsBoundingBox l b) (hc : IsBoundingBox l c) : b = c := by
  obtain ⟨b1, b2, b3, b4, b5, b6⟩ := hb
  obtain ⟨c1, c2, c3, c4, c5, c6⟩ := hc
  refine Prod.ext ((PointR3.ext_iff3 _ _).mpr ⟨?_, ?_, ?_⟩) ((PointR3.ext_iff3 _ _).mpr ⟨?_, ?_, ?_⟩)
  · exact b1.unique c1
  · exact b2.unique c2
  · exact b3.unique c3
  · exact b4.unique c4
  · exact b5.unique c5
  · exact b6.unique c6

/-- The bounding box of a mesh exists exactly for a mesh with a vertex, and it is the
bounding box of the vertex list. -/
theorem getBoundingBox_eq_some_iff (m : Mesh) (b : PointR3 × PointR3) :
    getBoundingBox m = some b ↔ m.vertices ≠ [] ∧ IsBoundingBox m.vertices b := by
  unfold getBoundingBox
  cases hv : m.vertices with
  | nil => simp
  | cons v0 vs =>
    simp only [Option.some.injEq, ne_eq, reduceCtorEq, not_false_eq_true, true_and]
    constructor
    · rintro rfl
      exact foldl_bboxStep_isBoundingBox v0 vs
    · intro h
      exact (foldl_bboxStep_isBoundingBox v0 vs).unique h

theorem getBoundingBox_eq_none_iff (m : Mesh) :
    getBoundingBox m = none ↔ m.vertices = [] := by
  unfold getBoundingBox
  cases m.vertices <;> simp

theorem exists_getBoundingBox (m : Mesh) (h : m.vertices ≠ []) :
    ∃ b, getBoundingBox m = some b ∧ IsBoundingBox m.vertices b := by
  cases hb : getBoundingBox m with
  | none => exact absurd ((getBoundingBox_eq_none_iff m).mp hb) h
  | some b => exact ⟨b, rfl, ((getBoundingBox_eq_some_iff m b).mp hb).2⟩

/-- Every vertex lies between the corners of the bounding box. -/
theorem IsBoundingBox.bounds {l : List PointR3} {b : PointR3 × PointR3}
    (hb : IsBoundingBox l b) {v : PointR3} (hv : v ∈ l) :
    (b.1.x ≤ v.x ∧ v.x ≤ b.2.x) ∧ (b.1.y ≤ v.y ∧ v.y ≤ b.2.y) ∧ (b.1.z ≤ v.z ∧ v.z ≤ b.2.z) := by
  obtain ⟨b1, b2, b3, b4, b5, b6⟩ := hb
  exact ⟨⟨b1.2 ⟨v, hv, rfl⟩, b4.2 ⟨v, hv, rfl⟩⟩, ⟨b2.2 ⟨v, hv, rfl⟩, b5.2 ⟨v, hv, rfl⟩⟩,
    ⟨b3.2 ⟨v, hv, rfl⟩, b6.2 ⟨v, hv, rfl⟩⟩⟩

theorem PointR3.max_eq (a : PointR3) : a.max = Max.max (Max.max a.x a.y) a.z := by
  unfold PointR3.max
  have h : (if a.x < a.y then a.y else a.x) = Max.max a.x a.y := by
    split_ifs with h
    · exact (max_eq_right (le_of_lt h)).symm
    · exact (max_eq_left (not_lt.mp h)).symm
  simp only [h]
  split_ifs with h2
  · exact (max_eq_right (le_of_lt h2)).symm
  · exact (max_eq_left (not_lt.mp h2)).symm

theorem smaxOf_eq (b : PointR3 × PointR3) :
    smaxOf b = Max.max (Max.max (b.2.x - b.1.x) (b.2.y - b.1.y)) (b.2.z - b.1.z) := by
  unfold smaxOf
  rw [PointR3.max_eq]
  rfl

/-- The three extents of the bounding box of a list with a vertex are non-negative. -/
theorem IsBoundingBox.extent_nonneg {l : List PointR3} {b : PointR3 × PointR3}
    (hb : IsBoundingBox l b) (hl : l ≠ []) :
    0 ≤ b.2.x - b.1.x ∧ 0 ≤ b.2.y - b.1.y ∧ 0 ≤ b.2.z - b.1.z := by
  obtain ⟨v, hv⟩ := List.exists_mem_of_ne_nil l hl
  obtain ⟨⟨h1, h2⟩, ⟨h3, h4⟩, ⟨h5, h6⟩⟩ := hb.bounds hv
  exact ⟨by linarith, by linarith, by linarith⟩

theorem IsBoundingBox.smax_nonneg {l : List PointR3} {b : PointR3 × PointR3}
    (hb : IsBoundingBox l b) (hl : l ≠ []) : 0 ≤ smaxOf b := by
  rw [smaxOf_eq]
  exact le_max_of_le_left (le_max_of_le_left (hb.extent_nonneg hl).1)

theorem extent_le_smax (b : PointR3 × PointR3) :
    b.2.x - b.1.x ≤ smaxOf b ∧ b.2.y - b.1.y ≤ smaxOf b ∧ b.2.z - b.1.z ≤ smaxOf b := by
  rw [smaxOf_eq]
  exact ⟨le_max_of_le_left (le_max_left _ _), le_max_of_le_left (le_max_right _ _),
    le_max_right _ _⟩

/-! ## Normalization -/

/-- With a bounding box and a non-zero divisor the normalization succeeds and maps every
vertex by the same translation and scaling. -/
theorem normalize_eq_ok (r : Nat) (m : Mesh) (b : PointR3 × PointR3)
    (hb : getBoundingBox m = some b) (hs : smaxOf b ≠ 0) :
    normalize r m =
      .ok ⟨m.vertices.map (normalizeVertex (translateOf b) ((r : ℚ) / smaxOf b)), m.faces⟩ := by
  simp [normalize, hb, guardedDiv, hs]

theorem normalizeVertex_x (b : PointR3 × PointR3) (f : ℚ) (v : PointR3) :
    (normalizeVertex (translateOf b) f v).x = (v.x - b.1.x) * f := by
  simp [normalizeVertex, translateOf, PointR3.add, PointR3.neg, PointR3.scale, sub_eq_add_neg]

theorem normalizeVertex_y (b : PointR3 × PointR3) (f : ℚ) (v : PointR3) :
    (normalizeVertex (translateOf b) f v).y = (v.y - b.1.y) * f := by
  simp [normalizeVertex, translateOf, PointR3.add, PointR3.neg, PointR3.scale, sub_eq_add_neg]

theorem normalizeVertex_z (b : PointR3 × PointR3) (f : ℚ) (v : PointR3) :
    (normalizeVertex (translateOf b) f v).z = (v.z - b.1.z) * f := by
  simp [normalizeVertex, translateOf, PointR3.add, PointR3.neg, PointR3.scale, sub_eq_add_neg]

/-- The lower corner itself is sent to the origin. -/
theorem normalizeVertex_lower (b : PointR3 × PointR3) (f : ℚ) :
    normalizeVertex (translateOf b) f b.1 = PointR3.origin := by
  rw [PointR3.ext_iff3, normalizeVertex_x, normalizeVertex_y, normalizeVertex_z]
  simp [PointR3.origin]

/-- A coordinate offset between `0` and the longest extent is scaled into `[0, r]`. -/
theorem scaled_offset_bounds (r : Nat) (s d : ℚ) (hs : 0 < s) (h0 : 0 ≤ d) (h1 : d ≤ s) :
    0 ≤ d * ((r : ℚ) / s) ∧ d * ((r : ℚ) / s) ≤ r := by
  have hr : (0 : ℚ) ≤ r := Nat.cast_nonneg r
  have hf : 0 ≤ (r : ℚ) / s := div_nonneg hr (le_of_lt hs)
  refine ⟨mul_nonneg h0 hf, ?_⟩
  calc d * ((r : ℚ) / s) ≤ s * ((r : ℚ) / s) := mul_le_mul_of_nonneg_right h1 hf
    _ = r := by field_simp

/-- Claim C1: for every resolution and every mesh with a vertex whose bounding box has a
strictly positive longest extent, the normalization loop succeeds, every coordinate of
every normalized vertex lies in the closed interval `[0, resolution]`, and every vertex
equal to the lower corner of the original bounding box is mapped to the origin. -/
theorem normalize_within_closed (r : Nat) (m : Mesh) (b : PointR3 × PointR3)
    (hb : getBoundingBox m = some b) (hpos : 0 < smaxOf b) :
    ∃ m', normalize r m = .ok m' ∧
      (∀ v ∈ m'.vertices, v.within 0 r) ∧
      (∀ i : Nat, m.vertices[i]? = some b.1 → m'.vertices[i]? = some PointR3.origin) := by
  refine ⟨_, normalize_eq_ok r m b hb (ne_of_gt hpos), ?_, ?_⟩
  · intro v hv
    obtain ⟨w, hw, rfl⟩ := List.mem_map.mp hv
    have hbb := ((getBoundingBox_eq_some_iff m b).mp hb).2
    obtain ⟨⟨x0, x1⟩, ⟨y0, y1⟩, ⟨z0, z1⟩⟩ := hbb.bounds hw
    obtain ⟨ex, ey, ez⟩ := extent_le_smax b
    unfold PointR3.within
    rw [normalizeVertex_x, normalizeVertex_y, normalizeVertex_z]
    exact ⟨scaled_offset_bounds r _ _ hpos (by linarith) (by linarith),
      scaled_offset_bounds r _ _ hpos (by linarith) (by linarith),
      scaled_offset_bounds r _ _ hpos (by linarith) (by linarith)⟩
  · intro i hi
    simp only [List.getElem?_map, hi, Option.map_some']
    rw [normalizeVertex_lower]

/-- Claim C1 at a concrete mesh: two vertices spanning a box of extents `1, 2, 0`,
resolution `4`. -/
theorem normalize_within_closed_witness :
    ∃ m', normalize 4 ⟨[⟨0, 0, 0⟩, ⟨1, 2, 0⟩], []⟩ = .ok m' ∧
      (∀ v ∈ m'.vertices, v.within 0 ((4 : Nat) : ℚ)) ∧
      (∀ i : Nat, (⟨[⟨0, 0, 0⟩, ⟨1, 2, 0⟩], []⟩ : Mesh).vertices[i]? =
          some ((⟨0, 0, 0⟩, ⟨1, 2, 0⟩) : PointR3 × PointR3).1 →
        m'.vertices[i]? = some PointR3.origin) :=
  normalize_within_closed 4 ⟨[⟨0, 0, 0⟩, ⟨1, 2, 0⟩], []⟩ (⟨0, 0, 0⟩, ⟨1, 2, 0⟩)
    (by decide) (by norm_num [smaxOf, PointR3.sub, PointR3.max])

/-- Claim C2, evaluated on the code: for the triangle with vertices `(0,0,0)`, `(1,0,0)`,
`(0,1,0)` and resolution `128` the normalization sends the vertex `(1,0,0)` to
`(128,0,0)`, whose first coordinate equals the resolution; so the normalized mesh does
not lie in the half-open range `[0, 128)` on every axis. -/
theorem normalize_not_halfOpen :
    normalize 128 ⟨[⟨0, 0, 0⟩, ⟨1, 0, 0⟩, ⟨0, 1, 0⟩], [[0, 1, 2]]⟩ =
        .ok ⟨[⟨0, 0, 0⟩, ⟨128, 0, 0⟩, ⟨0, 128, 0⟩], [[0, 1, 2]]⟩ ∧
      ¬ ∀ v ∈ ([⟨0, 0, 0⟩, ⟨128, 0, 0⟩, ⟨0, 128, 0⟩] : List PointR3),
          v.withinHalfOpen 0 ((128 : Nat) : ℚ) := by
  constructor
  · rw [normalize_eq_ok 128 _ (⟨0, 0, 0⟩, ⟨1, 1, 0⟩) (by decide)
      (by norm_num [smaxOf, PointR3.sub, PointR3.max])]
    norm_num [normalizeVertex, translateOf, smaxOf, PointR3.sub, PointR3.max, PointR3.add,
      PointR3.neg, PointR3.scale]
  · intro h
    have h1 := (h ⟨128, 0, 0⟩ (by simp)).1.2
    norm_num at h1

/-! ## Domain and image -/

/-- Claim C3, evaluated on the code: for resolution `128` the allocated domain has extent
`129` on every axis, contains the corner `(128,128,128)`, and the image holds
`129^3 = 2146689` voxels, not `128^3`. -/
theorem aDomain_side_exceeds_resolution :
    (aDomain 128).extent = PointZ3.diagonal 129 ∧
      (aDomain 128).isInside (PointZ3.diagonal 128) = true ∧
      (aDomain 128).size = 129 ^ 3 ∧
      (Image.create (aDomain 128)).data.length = 129 ^ 3 ∧
      129 ^ 3 ≠ 128 ^ 3 := by
  refine ⟨by decide, by decide, by decide, ?_, by decide⟩
  rw [Image.create, List.length_replicate]
  decide

theorem toComponent_of_lt (r : Nat) (hr : r < 2 ^ 31) : toComponent r = r := by
  unfold toComponent
  have h : r % 2 ^ 32 = r := Nat.mod_eq_of_lt (by omega)
  rw [h, if_pos hr]

/-- For a resolution that fits the signed component type the domain spans the integer
coordinates `0, ..., resolution` on every axis: extent `resolution + 1`. -/
theorem aDomain_extent (r : Nat) (hr : r < 2 ^ 31) :
    (aDomain r).extent = PointZ3.diagonal (r + 1) ∧ (aDomain r).size = (r + 1) ^ 3 := by
  have hx : (aDomain r).extent = PointZ3.diagonal (r + 1) := by
    simp [aDomain, Domain.extent, PointZ3.diagonal, toComponent_of_lt r hr]
  refine ⟨hx, ?_⟩
  unfold Domain.size
  rw [hx]
  simp only [PointZ3.diagonal]
  have : ((r : Int) + 1) * (r + 1) * (r + 1) = (((r + 1) ^ 3 : Nat) : Int) := by
    push_cast; ring
  rw [this, Int.toNat_ofNat]

/-! ### Linearized positions -/

theorem Domain.isInside_iff (d : Domain) (p : PointZ3) :
    d.isInside p = true ↔
      (d.lowerBound.x ≤ p.x ∧ p.x ≤ d.upperBound.x) ∧
      (d.lowerBound.y ≤ p.y ∧ p.y ≤ d.upperBound.y) ∧
      (d.lowerBound.z ≤ p.z ∧ p.z ≤ d.upperBound.z) := by
  simp [Domain.isInside, and_assoc]

/-- Two offsets below the extent with equal mixed-radix value agree digit by digit. -/
theorem radix_inj (e a a' b b' : Int) (ha : 0 ≤ a) (hae : a < e) (ha' : 0 ≤ a')
    (hae' : a' < e) (h : a + e * b = a' + e * b') : a = a' ∧ b = b' := by
  have he : 0 < e := lt_of_le_of_lt ha hae
  have h1 : (a + e * b) % e = a := by
    rw [Int.add_mul_emod_self_left]; exact Int.emod_eq_of_lt ha hae
  have h2 : (a' + e * b') % e = a' := by
    rw [Int.add_mul_emod_self_left]; exact Int.emod_eq_of_lt ha' hae'
  have haa : a = a' := by rw [← h1, ← h2, h]
  refine ⟨haa, ?_⟩
  subst haa
  have h3 : e * b = e * b' := by linarith
  exact mul_left_cancel₀ (ne_of_gt he) h3

/-- The mixed-radix value of offsets below the extents is non-negative and below the
product of the extents. -/
theorem radix_bound (ex ey ez a b c : Int) (ha : 0 ≤ a) (hae : a < ex) (hb : 0 ≤ b)
    (hbe : b < ey) (hc : 0 ≤ c) (hce : c < ez) :
    0 ≤ a + ex * b + ex * ey * c ∧ a + ex * b + ex * ey * c < ex * ey * ez := by
  have hex : 0 < ex := lt_of_le_of_lt ha hae
  have hey : 0 < ey := lt_of_le_of_lt hb hbe
  have h1 : 0 ≤ ex * b := mul_nonneg (le_of_lt hex) hb
  have h2 : 0 ≤ ex * ey * c := mul_nonneg (mul_nonneg (le_of_lt hex) (le_of_lt hey)) hc
  refine ⟨by linarith, ?_⟩
  have h3 : ex * b ≤ ex * (ey - 1) := mul_le_mul_of_nonneg_left (by linarith) (le_of_lt hex)
  have h4 : ex * ey * c ≤ ex * ey * (ez - 1) :=
    mul_le_mul_of_nonneg_left (by linarith) (mul_nonneg (le_of_lt hex) (le_of_lt hey))
  have h5 : ex * (ey - 1) = ex * ey - ex := by ring
  have h6 : ex * ey * (ez - 1) = ex * ey * ez - ex * ey := by ring
  linarith

/-- Inside the domain the linearized position is below the number of domain points. -/
theorem linearized_lt_size (img : Image) (hext : img.extent = img.domain.extent)
    (p : PointZ3) (hp : img.domain.isInside p = true) :
    img.linearized p < img.domain.size := by
  obtain ⟨⟨x0, x1⟩, ⟨y0, y1⟩, ⟨z0, z1⟩⟩ := (Domain.isInside_iff _ _).mp hp
  have hb := radix_bound img.domain.extent.x img.domain.extent.y img.domain.extent.z
    (p.x - img.domain.lowerBound.x) (p.y - img.domain.lowerBound.y)
    (p.z - img.domain.lowerBound.z) (by linarith) (by simp only [Domain.extent]; linarith)
    (by linarith) (by simp only [Domain.extent]; linarith)
    (by linarith) (by simp only [Domain.extent]; linarith)
  unfold Image.linearized Domain.size
  rw [hext]
  exact (Int.toNat_lt_toNat (lt_of_le_of_lt hb.1 hb.2)).mpr hb.2

/-- Distinct points of the domain have distinct linearized positions. -/
theorem linearized_inj (img : Image) (hext : img.extent = img.domain.extent)
    (p q : PointZ3) (hp : img.domain.isInside p = true) (hq : img.domain.isInside q = true)
    (h : img.linearized p = img.linearized q) : p = q := by
  obtain ⟨⟨px0, px1⟩, ⟨py0, py1⟩, ⟨pz0, pz1⟩⟩ := (Domain.isInside_iff _ _).mp hp
  obtain ⟨⟨qx0, qx1⟩, ⟨qy0, qy1⟩, ⟨qz0, qz1⟩⟩ := (Domain.isInside_iff _ _).mp hq
  have hbp := radix_bound img.domain.extent.x img.domain.extent.y img.domain.extent.z
    (p.x - img.domain.lowerBound.x) (p.y - img.domain.lowerBound.y)
    (p.z - img.domain.lowerBound.z) (by linarith) (by simp only [Domain.extent]; linarith)
    (by linarith) (by simp only [Domain.extent]; linarith)
    (by linarith) (by simp only [Domain.extent]; linarith)
  have hbq := radix_bound img.domain.extent.x img.domain.extent.y img.domain.extent.z
    (q.x - img.domain.lowerBound.x) (q.y - img.domain.lowerBound.y)
    (q.z - img.domain.lowerBound.z) (by linarith) (by simp only [Domain.extent]; linarith)
    (by linarith) (by simp only [Domain.extent]; linarith)
    (by linarith) (by simp only [Domain.extent]; linarith)
  unfold Image.linearized at h
  rw [hext] at h
  have h' := congrArg (fun n : Nat => (n : Int)) h
  simp only [Int.toNat_of_nonneg hbp.1, Int.toNat_of_nonneg hbq.1] at h'
  have hxy := radix_inj img.domain.extent.x (p.x - img.domain.lowerBound.x)
    (q.x - img.domain.lowerBound.x)
    ((p.y - img.domain.lowerBound.y) + img.domain.extent.y * (p.z - img.domain.lowerBound.z))
    ((q.y - img.domain.lowerBound.y) + img.domain.extent.y * (q.z - img.domain.lowerBound.z))
    (by linarith) (by simp only [Domain.extent]; linarith)
    (by linarith) (by simp only [Domain.extent]; linarith) (by linear_combination h')
  have hyz := radix_inj img.domain.extent.y (p.y - img.domain.lowerBound.y)
    (q.y - img.domain.lowerBound.y) (p.z - img.domain.lowerBound.z)
    (q.z - img.domain.lowerBound.z)
    (by linarith) (by simp only [Domain.extent]; linarith)
    (by linarith) (by simp only [Domain.extent]; linarith) hxy.2
  cases p; cases q
  simp only [PointZ3.mk.injEq]
  simp only at hxy hyz
  exact ⟨by linarith [hxy.1], by linarith [hyz.1], by linarith [hyz.2]⟩

/-! ### Stamping -/

/-- The image is well formed: its extent is that of its domain and the vector has one entry
per domain point. -/
theorem create_wf (d : Domain) :
    (Image.create d).extent = (Image.create d).domain.extent ∧
      (Image.create d).data.length = (Image.create d).domain.size := by
  simp [Image.create]

theorem setValue_wf (img : Image) (q : PointZ3) (v : Nat)
    (h : img.extent = img.domain.extent ∧ img.data.length = img.domain.size) :
    (img.setValue q v).domain = img.domain ∧
      (img.setValue q v).extent = (img.setValue q v).domain.extent ∧
      (img.setValue q v).data.length = (img.setValue q v).domain.size := by
  simp [Image.setValue, h.1, h.2]

/-- Reading a domain point after an assignment to a domain point. -/
theorem getValue_setValue (img : Image) (q p : PointZ3) (v : Nat)
    (h : img.extent = img.domain.extent ∧ img.data.length = img.domain.size)
    (hq : img.domain.isInside q = true) (hp : img.domain.isInside p = true) :
    (img.setValue q v).getValue p = if p = q then some v else img.getValue p := by
  have hlt : img.linearized q < img.data.length := by
    rw [h.2]; exact linearized_lt_size img h.1 q hq
  unfold Image.getValue
  have hlin : (img.setValue q v).linearized p = img.linearized p := rfl
  rw [hlin]
  simp only [Image.setValue]
  by_cases hpq : p = q
  · subst hpq
    simp [hlt]
  · have hne : img.linearized q ≠ img.linearized p := fun hc =>
      hpq (linearized_inj img h.1 p q hp hq hc.symm)
    simp [hpq, List.getElem?_set_ne hne]

/-- The stamping loop over a well-formed image: a domain point reads `128` when it belongs
to the digital set and keeps its former value otherwise. -/
theorem getValue_stamp (S : List PointZ3) (img : Image)
    (h : img.extent = img.domain.extent ∧ img.data.length = img.domain.size)
    (hS : ∀ q ∈ S, img.domain.isInside q = true) (p : PointZ3)
    (hp : img.domain.isInside p = true) :
    (stamp img S).getValue p = if p ∈ S then some 128 else img.getValue p := by
  induction S generalizing img with
  | nil => simp [stamp]
  | cons q S ih =>
    have hq := hS q (List.mem_cons_self _ _)
    obtain ⟨hd, hw⟩ := setValue_wf img q 128 h
    have ih' := ih (img.setValue q 128) hw
      (fun a ha => by rw [hd]; exact hS a (List.mem_cons_of_mem _ ha)) (by rw [hd]; exact hp)
    have hfold : stamp img (q :: S) = stamp (img.setValue q 128) S := rfl
    rw [hfold, ih', getValue_setValue img q p 128 h hq hp]
    by_cases hpS : p ∈ S
    · simp [hpS]
    · by_cases hpq : p = q
      · simp [hpq]
      · simp [hpS, hpq]

/-- The stamping loop only ever writes `128`. -/
theorem stamp_data (S : List PointZ3) (img : Image) (hz : ∀ v ∈ img.data, v = 0 ∨ v = 128) :
    ∀ v ∈ (stamp img S).data, v = 0 ∨ v = 128 := by
  induction S generalizing img with
  | nil => simpa [stamp] using hz
  | cons q S ih =>
    have hfold : stamp img (q :: S) = stamp (img.setValue q 128) S := rfl
    rw [hfold]
    apply ih
    intro v hv
    rcases List.mem_or_eq_of_mem_set hv with hv | hv
    · exact hz v hv
    · exact Or.inr hv

theorem stamp_domain (S : List PointZ3) (img : Image) :
    (stamp img S).domain = img.domain ∧ (stamp img S).data.length = img.data.length := by
  induction S generalizing img with
  | nil => simp [stamp]
  | cons q S ih =>
    have hfold : stamp img (q :: S) = stamp (img.setValue q 128) S := rfl
    rw [hfold, (ih (img.setValue q 128)).1, (ih (img.setValue q 128)).2]
    simp [Image.setValue]

/-- Claim C4: for every digital set contained in the image domain, the image produced by
the stamping loop from the freshly created (all zero) image reads `128` at every point of
the set and `0` at every other domain point; every stored value is `0` or `128`, and the
domain points reading `128` are exactly the points of the set. -/
theorem exportImage_values (r : Nat) (S : List PointZ3)
    (hS : ∀ q ∈ S, (aDomain r).isInside q = true) :
    (∀ p, (aDomain r).isInside p = true →
        (exportImage r S).getValue p = some (if p ∈ S then 128 else 0)) ∧
      (∀ v ∈ (exportImage r S).data, v = 0 ∨ v = 128) ∧
      (∀ p, (aDomain r).isInside p = true →
        ((exportImage r S).getValue p = some 128 ↔ p ∈ S)) := by
  have hval : ∀ p, (aDomain r).isInside p = true →
      (exportImage r S).getValue p = some (if p ∈ S then 128 else 0) := by
    intro p hp
    unfold exportImage
    rw [getValue_stamp S (Image.create (aDomain r)) (create_wf _) hS p hp]
    have hlt := linearized_lt_size (Image.create (aDomain r)) (create_wf _).1 p hp
    by_cases hpS : p ∈ S
    · simp [hpS]
    · have h0 : (Image.create (aDomain r)).getValue p = some 0 := by
        unfold Image.getValue
        rw [List.getElem?_eq_getElem (by rw [(create_wf _).2]; exact hlt)]
        simp [Image.create]
      simp [hpS, h0]
  refine ⟨hval, ?_, ?_⟩
  · apply stamp_data
    intro v hv
    exact Or.inl (List.eq_of_mem_replicate hv)
  · intro p hp
    rw [hval p hp]
    by_cases hpS : p ∈ S <;> simp [hpS]

/-- Claim C4 at a concrete input: resolution `1`, digital set `(0,0,0)`, `(1,0,1)`. -/
theorem exportImage_values_witness :
    (∀ p, (aDomain 1).isInside p = true →
        (exportImage 1 [⟨0, 0, 0⟩, ⟨1, 0, 1⟩]).getValue p =
          some (if p ∈ ([⟨0, 0, 0⟩, ⟨1, 0, 1⟩] : List PointZ3) then 128 else 0)) ∧
      (∀ v ∈ (exportImage 1 [⟨0, 0, 0⟩, ⟨1, 0, 1⟩]).data, v = 0 ∨ v = 128) ∧
      (∀ p, (aDomain 1).isInside p = true →
        ((exportImage 1 [⟨0, 0, 0⟩, ⟨1, 0, 1⟩]).getValue p = some 128 ↔
          p ∈ ([⟨0, 0, 0⟩, ⟨1, 0, 1⟩] : List PointZ3))) :=
  exportImage_values 1 [⟨0, 0, 0⟩, ⟨1, 0, 1⟩] (by decide)

/-! ## Command line -/

/-- An accepted command line with at least the program name runs the conversion once and
returns `0`. -/
theorem main_of_accepted (cl : CommandLine) (hargc : 1 ≤ cl.argc) (h : Accepted cl) :
    (main cl).1 = 0 ∧ RunsOnce cl (main cl).2 := by
  obtain ⟨h1, h2, h3, h4, h5, h6⟩ := h
  obtain ⟨i, hi⟩ := Option.isSome_iff_exists.mp h3
  obtain ⟨res, hres⟩ := Option.isSome_iff_exists.mp h5
  obtain ⟨o, ho⟩ := Option.isSome_iff_exists.mp h6
  have hn : ¬ cl.argc < 1 := not_lt.mpr hargc
  unfold RunsOnce
  rcases h4 with h4 | h4
  · simp [main, h1, h2, hn, hi, hres, ho, h4]
  · simp [main, h1, h2, hn, hi, hres, ho, h4]

/-- A command line that is not accepted returns `-1` without any conversion. -/
theorem main_of_not_accepted (cl : CommandLine) (h : ¬ Accepted cl) : main cl = (-1, []) := by
  unfold main
  by_cases h0 : (!cl.parseOK || cl.vm.help || decide (cl.argc < 1)) = true
  · rw [if_pos h0]
  · rw [if_neg h0]
    simp only [Bool.or_eq_true, Bool.not_eq_true', decide_eq_true_eq, not_or,
      Bool.not_eq_false] at h0
    obtain ⟨⟨h1, h2⟩, -⟩ := h0
    cases hi : cl.vm.input with
    | none => rfl
    | some i =>
      dsimp only
      by_cases hsep : separationOf cl.vm ≠ 6 ∧ separationOf cl.vm ≠ 26
      · rw [if_pos hsep]
      · rw [if_neg hsep]
        cases hres : cl.vm.resolution with
        | none => rfl
        | some res =>
          dsimp only
          cases ho : cl.vm.output with
          | none => rfl
          | some o =>
            exfalso
            apply h
            refine ⟨h1, by simpa using h2, by simp [hi], ?_, by simp [hres], by simp [ho]⟩
            by_contra hc
            exact hsep ⟨fun h6 => hc (Or.inl h6), fun h26 => hc (Or.inr h26)⟩

/-- Claim C5: for every parsed command line (one without any argument has no `--input`),
`main` returns `0` and runs the conversion exactly once, with the given input, output and
resolution and the voxelizer of the given separation, if and only if parsing succeeded,
`--help` is absent, `--input` is present, the separation (`6` when omitted) is `6` or
`26`, and `--resolution` and `--output` are present; in every other case it returns `-1`
and invokes no conversion.  In particular a command line without `--input`, one with
`--separation 7` and one with `--help` return `-1` without conversion. -/
theorem main_accepts_iff (cl : CommandLine) (hargc : cl.argc < 1 → cl.vm.input = none) :
    (((main cl).1 = 0 ∧ RunsOnce cl (main cl).2) ↔ Accepted cl) ∧
      (¬ Accepted cl → main cl = (-1, [])) ∧
      (cl.vm.input = none → main cl = (-1, [])) ∧
      (cl.vm.separation = some 7 → main cl = (-1, [])) ∧
      (cl.vm.help = true → main cl = (-1, [])) := by
  refine ⟨⟨?_, ?_⟩, main_of_not_accepted cl, ?_, ?_, ?_⟩
  · rintro ⟨h0, -⟩
    by_contra hna
    rw [main_of_not_accepted cl hna] at h0
    exact absurd h0 (by decide)
  · intro h
    refine main_of_accepted cl ?_ h
    by_contra hlt
    have hin := hargc (not_le.mp hlt)
    have h3 := h.2.2.1
    rw [hin] at h3
    exact absurd h3 (by decide)
  · intro hin
    exact main_of_not_accepted cl (fun h => by have h3 := h.2.2.1; rw [hin] at h3; exact absurd h3 (by decide))
  · intro hsep
    refine main_of_not_accepted cl (fun h => ?_)
    have h4 := h.2.2.2.1
    simp [separationOf, hsep] at h4
  · intro hh
    refine main_of_not_accepted cl (fun h => ?_)
    have h2 := h.2.1
    rw [hh] at h2
    exact absurd h2 (by decide)

/-- Claim C5 at the command line of the usage example. -/
theorem main_accepts_iff_witness :
    (((main usageExample).1 = 0 ∧ RunsOnce usageExample (main usageExample).2) ↔
        Accepted usageExample) ∧
      (¬ Accepted usageExample → main usageExample = (-1, [])) ∧
      (usageExample.vm.input = none → main usageExample = (-1, [])) ∧
      (usageExample.vm.separation = some 7 → main usageExample = (-1, [])) ∧
      (usageExample.vm.help = true → main usageExample = (-1, [])) :=
  main_accepts_iff usageExample (fun h => absurd h (by decide))

/-- Without `--output` the program reports the missing option and returns `-1`. -/
theorem main_without_output (cl : CommandLine) (h : cl.vm.output = none) :
    main cl = (-1, []) :=
  main_of_not_accepted cl (fun ha => by
    have h6 := ha.2.2.2.2.2
    rw [h] at h6
    exact absurd h6 (by decide))

/-- Claim C6, evaluated on the code: for `mesh2vol -i mesh.off -r 128`, where only
`--output` is omitted, `main` returns `-1` and runs no conversion; no output filename is
generated. -/
theorem main_missing_output_fails :
    main ⟨5, true, ⟨false, some "mesh.off", none, none, some 128⟩⟩ = (-1, []) := by
  decide

/-! ## Normalization: order of the vertices -/

theorem coords_perm (f : PointR3 → ℚ) {l l' : List PointR3} (hp : l.Perm l') :
    coords f l = coords f l' := by
  ext q
  simp only [coords, Set.mem_setOf_eq]
  constructor
  · rintro ⟨v, hv, hq⟩; exact ⟨v, hp.mem_iff.mp hv, hq⟩
  · rintro ⟨v, hv, hq⟩; exact ⟨v, hp.mem_iff.mpr hv, hq⟩

theorem IsBoundingBox.perm {l l' : List PointR3} {b : PointR3 × PointR3}
    (hb : IsBoundingBox l b) (hp : l.Perm l') : IsBoundingBox l' b := by
  unfold IsBoundingBox at hb ⊢
  simpa only [coords_perm _ hp] using hb

/-- The bounding box does not depend on the order of the vertices. -/
theorem getBoundingBox_perm (m m' : Mesh) (hp : m.vertices.Perm m'.vertices) :
    getBoundingBox m' = getBoundingBox m := by
  cases hb : getBoundingBox m with
  | none =>
    have hnil := (getBoundingBox_eq_none_iff m).mp hb
    rw [hnil] at hp
    exact (getBoundingBox_eq_none_iff m').mpr (List.Perm.eq_nil (List.Perm.symm hp))
  | some b =>
    obtain ⟨hne, hbb⟩ := (getBoundingBox_eq_some_iff m b).mp hb
    refine (getBoundingBox_eq_some_iff m' b).mpr ⟨?_, hbb.perm hp⟩
    intro hnil
    rw [hnil] at hp
    exact hne (List.Perm.eq_nil hp)

/-- Claim C7: for every mesh with a strictly positive longest extent and every
permutation of its vertex sequence, the permuted mesh has the same bounding box, the same
translate vector and the same scale factor; both normalizations succeed and apply one and
the same map to every vertex, so that the normalized permuted sequence is the same
permutation of the normalized original: a vertex found at position `i` of the permuted
mesh and at position `j` of the original has the same image at these positions. -/
theorem normalize_perm (r : Nat) (m m' : Mesh) (b : PointR3 × PointR3)
    (hb : getBoundingBox m = some b) (hpos : 0 < smaxOf b)
    (hp : m.vertices.Perm m'.vertices) :
    getBoundingBox m' = some b ∧
      (getBoundingBox m').map translateOf = (getBoundingBox m).map translateOf ∧
      factorOf r m' = factorOf r m ∧
      ∃ g n n', normalize r m = .ok n ∧ normalize r m' = .ok n' ∧
        n.vertices = m.vertices.map g ∧ n'.vertices = m'.vertices.map g ∧
        n.vertices.Perm n'.vertices ∧
        ∀ i j : Nat, m'.vertices[i]? = m.vertices[j]? → n'.vertices[i]? = n.vertices[j]? := by
  have hb' : getBoundingBox m' = some b := by rw [getBoundingBox_perm m m' hp, hb]
  refine ⟨hb', by rw [hb', hb], by simp [factorOf, hb, hb'], ?_⟩
  refine ⟨normalizeVertex (translateOf b) ((r : ℚ) / smaxOf b), _, _,
    normalize_eq_ok r m b hb (ne_of_gt hpos), normalize_eq_ok r m' b hb' (ne_of_gt hpos),
    rfl, rfl, hp.map _, ?_⟩
  intro i j hij
  simp only [List.getElem?_map, hij]

/-- Claim C7 at a concrete mesh and the exchange of its two vertices. -/
theorem normalize_perm_witness :
    getBoundingBox ⟨[⟨1, 2, 0⟩, ⟨0, 0, 0⟩], []⟩ = some (⟨0, 0, 0⟩, ⟨1, 2, 0⟩) ∧
      (getBoundingBox ⟨[⟨1, 2, 0⟩, ⟨0, 0, 0⟩], []⟩).map translateOf =
        (getBoundingBox ⟨[⟨0, 0, 0⟩, ⟨1, 2, 0⟩], []⟩).map translateOf ∧
      factorOf 4 ⟨[⟨1, 2, 0⟩, ⟨0, 0, 0⟩], []⟩ = factorOf 4 ⟨[⟨0, 0, 0⟩, ⟨1, 2, 0⟩], []⟩ ∧
      ∃ g n n', normalize 4 ⟨[⟨0, 0, 0⟩, ⟨1, 2, 0⟩], []⟩ = .ok n ∧
        normalize 4 ⟨[⟨1, 2, 0⟩, ⟨0, 0, 0⟩], []⟩ = .ok n' ∧
        n.vertices = (⟨[⟨0, 0, 0⟩, ⟨1, 2, 0⟩], []⟩ : Mesh).vertices.map g ∧
        n'.vertices = (⟨[⟨1, 2, 0⟩, ⟨0, 0, 0⟩], []⟩ : Mesh).vertices.map g ∧
        n.vertices.Perm n'.vertices ∧
        ∀ i j : Nat, (⟨[⟨1, 2, 0⟩, ⟨0, 0, 0⟩], []⟩ : Mesh).vertices[i]? =
            (⟨[⟨0, 0, 0⟩, ⟨1, 2, 0⟩], []⟩ : Mesh).vertices[j]? →
          n'.vertices[i]? = n.vertices[j]? :=
  normalize_perm 4 ⟨[⟨0, 0, 0⟩, ⟨1, 2, 0⟩], []⟩ ⟨[⟨1, 2, 0⟩, ⟨0, 0, 0⟩], []⟩
    (⟨0, 0, 0⟩, ⟨1, 2, 0⟩) (by decide) (by norm_num [smaxOf, PointR3.sub, PointR3.max])
    (List.Perm.swap _ _ _)

/-! ## The divisor of the scale factor -/

/-- The divisor is zero exactly when the two corners of the box coincide. -/
theorem IsBoundingBox.smax_eq_zero_iff {l : List PointR3} {b : PointR3 × PointR3}
    (hb : IsBoundingBox l b) (hl : l ≠ []) : smaxOf b = 0 ↔ b.1 = b.2 := by
  obtain ⟨hx, hy, hz⟩ := hb.extent_nonneg hl
  obtain ⟨ex, ey, ez⟩ := extent_le_smax b
  constructor
  · intro h0
    rw [h0] at ex ey ez
    exact (PointR3.ext_iff3 _ _).mpr ⟨by linarith, by linarith, by linarith⟩
  · intro h
    rw [smaxOf_eq, ← h]
    simp

/-- The corners of the box coincide exactly when all vertices coincide. -/
theorem IsBoundingBox.corners_eq_iff {l : List PointR3} {b : PointR3 × PointR3}
    (hb : IsBoundingBox l b) : b.1 = b.2 ↔ ∀ v ∈ l, ∀ w ∈ l, v = w := by
  constructor
  · intro h
    have key : ∀ v ∈ l, v = b.1 := by
      intro v hv
      obtain ⟨⟨x0, x1⟩, ⟨y0, y1⟩, ⟨z0, z1⟩⟩ := hb.bounds hv
      rw [← h] at x1 y1 z1
      exact (PointR3.ext_iff3 _ _).mpr ⟨le_antisymm x1 x0, le_antisymm y1 y0, le_antisymm z1 z0⟩
    intro v hv w hw
    rw [key v hv, key w hw]
  · intro h
    obtain ⟨⟨⟨v1, hv1, e1⟩, -⟩, ⟨⟨v2, hv2, e2⟩, -⟩, ⟨⟨v3, hv3, e3⟩, -⟩,
      ⟨⟨w1, hw1, f1⟩, -⟩, ⟨⟨w2, hw2, f2⟩, -⟩, ⟨⟨w3, hw3, f3⟩, -⟩⟩ := hb
    refine (PointR3.ext_iff3 _ _).mpr ⟨?_, ?_, ?_⟩
    · rw [← e1, ← f1, h v1 hv1 w1 hw1]
    · rw [← e2, ← f2, h v2 hv2 w2 hw2]
    · rw [← e3, ← f3, h v3 hv3 w3 hw3]

/-- Claim C8: for every mesh with at least one vertex the divisor `smax` is non-negative
and it is zero exactly when all vertices coincide; the scale factor is always computed by
dividing by `smax`, without a prior test, so the normalization divides by zero if and only
if `smax` is zero; and for every mesh in which two vertices differ the division-by-zero
outcome is not reached: the normalization succeeds. -/
theorem smax_zero_iff_degenerate (m : Mesh) (b : PointR3 × PointR3)
    (hb : getBoundingBox m = some b) :
    0 ≤ smaxOf b ∧
      (smaxOf b = 0 ↔ ∀ v ∈ m.vertices, ∀ w ∈ m.vertices, v = w) ∧
      (∀ r : Nat, factorOf r m = guardedDiv (r : ℚ) (smaxOf b)) ∧
      (∀ r : Nat, normalize r m = .error .divisionByZero ↔ smaxOf b = 0) ∧
      ((∃ v ∈ m.vertices, ∃ w ∈ m.vertices, v ≠ w) →
        ∀ r : Nat, normalize r m ≠ .error .divisionByZero ∧ ∃ n, normalize r m = .ok n) := by
  obtain ⟨hne, hbb⟩ := (getBoundingBox_eq_some_iff m b).mp hb
  have hiff : smaxOf b = 0 ↔ ∀ v ∈ m.vertices, ∀ w ∈ m.vertices, v = w :=
    (hbb.smax_eq_zero_iff hne).trans hbb.corners_eq_iff
  have hdiv : ∀ r : Nat, normalize r m = .error .divisionByZero ↔ smaxOf b = 0 := by
    intro r
    by_cases hs : smaxOf b = 0
    · simp [normalize, hb, guardedDiv, hs]
    · rw [normalize_eq_ok r m b hb hs]
      simp [hs]
  refine ⟨hbb.smax_nonneg hne, hiff, fun r => by simp [factorOf, hb], hdiv, ?_⟩
  rintro ⟨v, hv, w, hw, hvw⟩ r
  have hs : smaxOf b ≠ 0 := fun h0 => hvw (hiff.mp h0 v hv w hw)
  exact ⟨fun h => hs ((hdiv r).mp h), _, normalize_eq_ok r m b hb hs⟩

/-- Claim C8 at a concrete mesh of two distinct vertices. -/
theorem smax_zero_iff_degenerate_witness :
    0 ≤ smaxOf segmentBox ∧
      (smaxOf segmentBox = 0 ↔ ∀ v ∈ segmentMesh.vertices, ∀ w ∈ segmentMesh.vertices, v = w) ∧
      (∀ r : Nat, factorOf r segmentMesh = guardedDiv (r : ℚ) (smaxOf segmentBox)) ∧
      (∀ r : Nat, normalize r segmentMesh = .error .divisionByZero ↔ smaxOf segmentBox = 0) ∧
      ((∃ v ∈ segmentMesh.vertices, ∃ w ∈ segmentMesh.vertices, v ≠ w) →
        ∀ r : Nat, normalize r segmentMesh ≠ .error .divisionByZero ∧
          ∃ n, normalize r segmentMesh = .ok n) :=
  smax_zero_iff_degenerate segmentMesh segmentBox (by decide)

/-! ## Normalization: affine images -/

theorem coords_affine_least (c tq : ℚ) (hc : 0 ≤ c) (f g : PointR3 → ℚ) (h : PointR3 → PointR3)
    (hg : ∀ v, g (h v) = c * f v + tq) {l : List PointR3} {a : ℚ}
    (ha : IsLeast (coords f l) a) : IsLeast (coords g (l.map h)) (c * a + tq) := by
  obtain ⟨⟨v, hv, hva⟩, hlb⟩ := ha
  constructor
  · exact ⟨h v, List.mem_map_of_mem h hv, by rw [hg, hva]⟩
  · rintro q ⟨w, hw, rfl⟩
    obtain ⟨u, hu, rfl⟩ := List.mem_map.mp hw
    rw [hg]
    have := hlb ⟨u, hu, rfl⟩
    have := mul_le_mul_of_nonneg_left this hc
    linarith

theorem coords_affine_greatest (c tq : ℚ) (hc : 0 ≤ c) (f g : PointR3 → ℚ)
    (h : PointR3 → PointR3) (hg : ∀ v, g (h v) = c * f v + tq) {l : List PointR3} {a : ℚ}
    (ha : IsGreatest (coords f l) a) : IsGreatest (coords g (l.map h)) (c * a + tq) := by
  obtain ⟨⟨v, hv, hva⟩, hub⟩ := ha
  constructor
  · exact ⟨h v, List.mem_map_of_mem h hv, by rw [hg, hva]⟩
  · rintro q ⟨w, hw, rfl⟩
    obtain ⟨u, hu, rfl⟩ := List.mem_map.mp hw
    rw [hg]
    have := hub ⟨u, hu, rfl⟩
    have := mul_le_mul_of_nonneg_left this hc
    linarith

/-- A non-negative uniform scaling followed by a translation maps the bounding box of a
vertex list onto the bounding box of the image list. -/
theorem IsBoundingBox.affine {l : List PointR3} {b : PointR3 × PointR3}
    (hb : IsBoundingBox l b) (c : ℚ) (hc : 0 ≤ c) (t : PointR3) :
    IsBoundingBox (l.map (PointR3.affine c t)) (PointR3.affine c t b.1, PointR3.affine c t b.2) := by
  obtain ⟨b1, b2, b3, b4, b5, b6⟩ := hb
  exact ⟨coords_affine_least c t.x hc _ _ _ (fun _ => rfl) b1,
    coords_affine_least c t.y hc _ _ _ (fun _ => rfl) b2,
    coords_affine_least c t.z hc _ _ _ (fun _ => rfl) b3,
    coords_affine_greatest c t.x hc _ _ _ (fun _ => rfl) b4,
    coords_affine_greatest c t.y hc _ _ _ (fun _ => rfl) b5,
    coords_affine_greatest c t.z hc _ _ _ (fun _ => rfl) b6⟩

/-- The loop body is a uniform scaling by `factor` followed by a translation. -/
theorem normalizeVertex_eq_affine (tr : PointR3) (f : ℚ) :
    normalizeVertex tr f = PointR3.affine f (tr.scale f) := by
  funext v
  rw [PointR3.ext_iff3]
  simp only [normalizeVertex, PointR3.affine, PointR3.add, PointR3.scale]
  exact ⟨by ring, by ring, by ring⟩

/-- Under a non-negative scaling and a translation the divisor is scaled alike. -/
theorem smaxOf_affine (c : ℚ) (hc : 0 ≤ c) (t : PointR3) (b : PointR3 × PointR3) :
    smaxOf (PointR3.affine c t b.1, PointR3.affine c t b.2) = c * smaxOf b := by
  rw [smaxOf_eq, smaxOf_eq]
  simp only [PointR3.affine]
  rw [mul_max_of_nonneg _ _ hc, mul_max_of_nonneg _ _ hc]
  congr 1
  · congr 1 <;> ring
  · ring

theorem getBoundingBox_map_affine (m : Mesh) (b : PointR3 × PointR3)
    (hb : getBoundingBox m = some b) (c : ℚ) (hc : 0 ≤ c) (t : PointR3) :
    getBoundingBox ⟨m.vertices.map (PointR3.affine c t), m.faces⟩ =
      some (PointR3.affine c t b.1, PointR3.affine c t b.2) := by
  obtain ⟨hne, hbb⟩ := (getBoundingBox_eq_some_iff m b).mp hb
  refine (getBoundingBox_eq_some_iff _ _).mpr ⟨?_, hbb.affine c hc t⟩
  simpa using hne

/-- Claim C9: for every resolution and every mesh with a strictly positive longest
extent, the normalized mesh has a bounding box whose lower corner is the origin and whose
longest extent equals the resolution; on each axis some normalized vertex has coordinate
`0`, and on an axis of longest original extent some normalized vertex has coordinate
exactly the resolution. -/
theorem normalize_bbox (r : Nat) (m : Mesh) (b : PointR3 × PointR3)
    (hb : getBoundingBox m = some b) (hpos : 0 < smaxOf b) :
    ∃ n hi, normalize r m = .ok n ∧
      getBoundingBox n = some (PointR3.origin, hi) ∧ smaxOf (PointR3.origin, hi) = r ∧
      ((∃ v ∈ n.vertices, v.x = 0) ∧ (∃ v ∈ n.vertices, v.y = 0) ∧
        (∃ v ∈ n.vertices, v.z = 0)) ∧
      (b.2.x - b.1.x = smaxOf b → ∃ v ∈ n.vertices, v.x = r) ∧
      (b.2.y - b.1.y = smaxOf b → ∃ v ∈ n.vertices, v.y = r) ∧
      (b.2.z - b.1.z = smaxOf b → ∃ v ∈ n.vertices, v.z = r) := by
  have hne : smaxOf b ≠ 0 := ne_of_gt hpos
  have hf : 0 ≤ (r : ℚ) / smaxOf b := div_nonneg (Nat.cast_nonneg r) (le_of_lt hpos)
  have hbox := getBoundingBox_map_affine m b hb _ hf ((translateOf b).scale ((r : ℚ) / smaxOf b))
  rw [← normalizeVertex_eq_affine, normalizeVertex_lower] at hbox
  obtain ⟨-, l1, l2, l3, g1, g2, g3⟩ := (getBoundingBox_eq_some_iff _ _).mp hbox
  refine ⟨_, _, normalize_eq_ok r m b hb hne, hbox, ?_, ⟨l1.1, l2.1, l3.1⟩, ?_, ?_, ?_⟩
  · have h := smaxOf_affine _ hf ((translateOf b).scale ((r : ℚ) / smaxOf b)) b
    rw [← normalizeVertex_eq_affine, normalizeVertex_lower] at h
    rw [h]
    field_simp
  · intro hx
    obtain ⟨v, hv, e⟩ := g1.1
    refine ⟨v, hv, ?_⟩
    rw [e]
    simp only [normalizeVertex_x, hx]
    field_simp
  · intro hy
    obtain ⟨v, hv, e⟩ := g2.1
    refine ⟨v, hv, ?_⟩
    rw [e]
    simp only [normalizeVertex_y, hy]
    field_simp
  · intro hz
    obtain ⟨v, hv, e⟩ := g3.1
    refine ⟨v, hv, ?_⟩
    rw [e]
    simp only [normalizeVertex_z, hz]
    field_simp

/-- Claim C9 at a concrete mesh, resolution `4`. -/
theorem normalize_bbox_witness :
    ∃ n hi, normalize 4 segmentMesh = .ok n ∧
      getBoundingBox n = some (PointR3.origin, hi) ∧
      smaxOf (PointR3.origin, hi) = ((4 : Nat) : ℚ) ∧
      ((∃ v ∈ n.vertices, v.x = 0) ∧ (∃ v ∈ n.vertices, v.y = 0) ∧
        (∃ v ∈ n.vertices, v.z = 0)) ∧
      (segmentBox.2.x - segmentBox.1.x = smaxOf segmentBox →
        ∃ v ∈ n.vertices, v.x = ((4 : Nat) : ℚ)) ∧
      (segmentBox.2.y - segmentBox.1.y = smaxOf segmentBox →
        ∃ v ∈ n.vertices, v.y = ((4 : Nat) : ℚ)) ∧
      (segmentBox.2.z - segmentBox.1.z = smaxOf segmentBox →
        ∃ v ∈ n.vertices, v.z = ((4 : Nat) : ℚ)) :=
  normalize_bbox 4 segmentMesh segmentBox (by decide)
    (by norm_num [segmentBox, smaxOf, PointR3.sub, PointR3.max])

/-- Claim C10: for every resolution, every mesh with a strictly positive longest extent,
every vector `t` and every rational `c > 0`, normalizing the mesh whose vertices are
`c*v + t` (in the same order) succeeds and yields exactly the normalized mesh of the
original. -/
theorem normalize_affine_invariant (r : Nat) (m : Mesh) (b : PointR3 × PointR3)
    (hb : getBoundingBox m = some b) (hpos : 0 < smaxOf b) (c : ℚ) (hc : 0 < c)
    (t : PointR3) :
    normalize r ⟨m.vertices.map (PointR3.affine c t), m.faces⟩ = normalize r m ∧
      ∃ n, normalize r m = .ok n := by
  have hne : smaxOf b ≠ 0 := ne_of_gt hpos
  have hb' := getBoundingBox_map_affine m b hb c (le_of_lt hc) t
  have hs' := smaxOf_affine c (le_of_lt hc) t b
  have hne' : smaxOf (PointR3.affine c t b.1, PointR3.affine c t b.2) ≠ 0 := by
    rw [hs']; exact mul_ne_zero (ne_of_gt hc) hne
  refine ⟨?_, _, normalize_eq_ok r m b hb hne⟩
  rw [normalize_eq_ok r m b hb hne, normalize_eq_ok r _ _ hb' hne']
  simp only [List.map_map, hs']
  congr 2
  apply List.map_congr_left
  intro v _
  rw [PointR3.ext_iff3]
  simp only [Function.comp_apply, normalizeVertex_x, normalizeVertex_y, normalizeVertex_z,
    PointR3.affine]
  have hcne : c ≠ 0 := ne_of_gt hc
  refine ⟨?_, ?_, ?_⟩ <;> field_simp <;> ring

/-- Claim C10 at a concrete mesh, scaling `3` and translation `(5, -1, 2)`. -/
theorem normalize_affine_invariant_witness :
    normalize 4 ⟨segmentMesh.vertices.map (PointR3.affine 3 ⟨5, -1, 2⟩), segmentMesh.faces⟩ =
        normalize 4 segmentMesh ∧
      ∃ n, normalize 4 segmentMesh = .ok n :=
  normalize_affine_invariant 4 segmentMesh segmentBox (by decide)
    (by norm_num [segmentBox, smaxOf, PointR3.sub, PointR3.max]) 3 (by norm_num) ⟨5, -1, 2⟩

end Mesh2Vol
